import Mathlib

/-!
Verification of the Asset Authorization Resolution Engine
(jumpserver, apps/perms/api/user_permission.py) against its
natural-language specification.

The definitions below shallowly embed the code of
`src/apps/perms/api/user_permission.py` together with the engine pieces
the spec describes (TreeResolver, AssetResolver, PermissionCache,
ActionSet, TreeMaterializer).  Where the deciding code is part of the
view file it is translated directly; where the engine lives outside the
excerpt (AssetPermissionUtil, models.Action, ParserNode, common.tree)
the definition is modelled from the spec and says so in its doc string.
Machine integers are `Nat`; Django querysets are `List`s; Python dicts
appear as association lists preserving insertion order.
-/

namespace JumpServer

/-- A node of the asset tree: hierarchical container with a path-like
`key`; a descendant's key extends the ancestor's key followed by `:`. -/
structure NodeT where
  id : Nat
  key : String
  name : String
deriving DecidableEq

/-- A managed asset, linked to a non-empty set of nodes, with a
validity flag (soft-deleted / disabled assets are invalid). -/
structure Asset where
  id : Nat
  hostname : String
  ip : String
  is_valid : Bool
  nodes : List NodeT
deriving DecidableEq

/-- A login account (system user) with a priority used for default
ordering and a mutable `actions` attribute filled in by the view. -/
structure SystemUserRec where
  id : Nat
  name : String
  priority : Nat
  actions : Nat
deriving DecidableEq

/-- Association-list lookup with decidable key equality, modelling a
Python dict `get` (first binding wins, as dicts hold unique keys). -/
def alookup {κ β : Type} [DecidableEq κ] (m : List (κ × β)) (k : κ) : Option β :=
  match m with
  | [] => none
  | (k', v) :: rest => if k' = k then some v else alookup rest k

/-- Association-list lookup into `Nat` values defaulting to `0`,
modelling Python `dict.get(key, 0)`. -/
def alookupD (m : List (Nat × Nat)) (k : Nat) : Nat :=
  (alookup m k).getD 0

/-- Hexadecimal digit value of a character, `none` when the character
is not a hex digit.  Mirrors the digit set accepted by CPython
`int(hex, 16)` for a single character (both cases accepted). -/
def hexDigitVal (c : Char) : Option Nat :=
  if 48 ≤ c.toNat ∧ c.toNat ≤ 57 then some (c.toNat - 48)
  else if 97 ≤ c.toNat ∧ c.toNat ≤ 102 then some (c.toNat - 87)
  else if 65 ≤ c.toNat ∧ c.toNat ≤ 70 then some (c.toNat - 55)
  else none

/-- True for the two curly brace characters (codes 123 and 125), which
CPython `uuid.UUID` strips from both ends of its argument. -/
def isBraceChar (c : Char) : Bool :=
  c.toNat == 123 || c.toNat == 125

/-- Strip brace characters from both ends of a character list, as
Python `str.strip` with the two brace characters does. -/
def stripBraces (cs : List Char) : List Char :=
  ((cs.dropWhile isBraceChar).reverse.dropWhile isBraceChar).reverse

/-- Fold a list of hex digit characters into the number they denote,
`none` as soon as a non-hex character appears. -/
def hexValue (cs : List Char) : Option Nat :=
  cs.foldl
    (fun acc c =>
      match acc, hexDigitVal c with
      | some n, some d => some (n * 16 + d)
      | _, _ => none)
    (some 0)

/-- Modelled from the spec and the CPython standard library:
`uuid.UUID(s)` (external to the repository) accepts the canonical
`urn:uuid:` prefix, strips braces, drops dashes, and requires exactly
32 hexadecimal digits, raising `ValueError` otherwise; here failure is
`none` and success the 128-bit integer value. -/
def parseUUID (s : String) : Option Nat :=
  let urn := "urn:uuid:".toList
  let cs := s.toList
  let cs := if urn.isPrefixOf cs then cs.drop urn.length else cs
  let cs := stripBraces cs
  let cs := cs.filter (fun c => c.toNat ≠ 45)
  if cs.length = 32 then hexValue cs else none

/-- Modelled from the spec: the closed enumeration of action names with
their bits (`models.Action` is not part of the excerpt); §4.4 describes
a bitmask over named actions such as connect, upload, download. -/
def actionChoices : List (String × Nat) :=
  [("connect", 1), ("upload_file", 2), ("download_file", 4)]

/-- Modelled from the spec: `Action.value_to_choices` / `decode(set)`
(§4.4) enumerates every action name whose bit is present in the mask. -/
def value_to_choices (v : Nat) : List String :=
  (actionChoices.filter (fun p => v &&& p.2 ≠ 0)).map (fun p => p.1)

/-- Modelled from the spec: `contains(set, name)` (§4.4) is true iff
the bit registered for `name` is set in `set`; names outside the
closed enumeration are never contained. -/
def containsAction (v : Nat) (name : String) : Bool :=
  match alookup actionChoices name with
  | some b => decide (v &&& b ≠ 0)
  | none => false

/-- One granting path discovered while walking the resolved tree: it
grants `actions` to login account `acctId` on the asset `assetId`.
An asset reachable through several nodes or rules contributes several
occurrences. -/
structure GrantOcc where
  assetId : Nat
  acctId : Nat
  actions : Nat
deriving DecidableEq

/-- One entry of the resolved asset sequence: the asset together with
its per-login-account merged action masks. -/
structure ResolvedAsset where
  assetId : Nat
  accounts : List (Nat × Nat)
deriving DecidableEq

/-- Union one `(account, actions)` contribution into a per-account
action map: OR into the existing binding, or append a new binding. -/
def orInsert (m : List (Nat × Nat)) (k v : Nat) : List (Nat × Nat) :=
  match m with
  | [] => [(k, v)]
  | (k', v') :: rest =>
    if k' = k then (k', v' ||| v) :: rest else (k', v') :: orInsert rest k v

/-- Merge one granting occurrence into the accumulated asset sequence:
an asset already present has its account map unioned, a new asset is
appended, preserving first-seen order. -/
def addOcc (acc : List ResolvedAsset) (o : GrantOcc) : List ResolvedAsset :=
  match acc with
  | [] => [⟨o.assetId, [(o.acctId, o.actions)]⟩]
  | r :: rest =>
    if r.assetId = o.assetId then
      ⟨r.assetId, orInsert r.accounts o.acctId o.actions⟩ :: rest
    else r :: addOcc rest o

/-- Modelled from the spec: the AssetResolver flatten
(`AssetPermissionUtilV2.get_assets` / `assets_for`, §4.2, is not in the
excerpt): walk every granting path, deduplicate assets appearing under
multiple nodes, and union their per-login-account ActionSets across
all paths. -/
def assets_for (occs : List GrantOcc) : List ResolvedAsset :=
  occs.foldl addOcc []

/-- The merged action mask recorded for login account `a` on asset `i`
in a resolved asset sequence (`0` when absent). -/
def acctActions (rs : List ResolvedAsset) (i a : Nat) : Nat :=
  match rs with
  | [] => 0
  | r :: rest => if r.assetId = i then alookupD r.accounts a else acctActions rest i a

/-- The union of the action masks of all occurrences granting account
`a` on asset `i`, in path order. -/
def occActionsUnion (occs : List GrantOcc) (i a : Nat) : Nat :=
  occs.foldl (fun v o => if o.assetId = i ∧ o.acctId = a then v ||| o.actions else v) 0

/-- Keep the first asset of each id, dropping later duplicates; models
queryset `.distinct()` on the rows produced by the node-key join. -/
def distinctById : List Asset → List Asset
  | [] => []
  | a :: rest => a :: distinctById (rest.filter (fun b => b.id ≠ a.id))
termination_by l => l.length
decreasing_by
  simp only [List.length_cons]
  exact Nat.lt_succ_of_le (List.length_filter_le _ _)

/-- The node-key pattern of `UserGrantedAssetsApi.filter_by_nodes`:
the regex built there as two alternatives anchored at the start
matches exactly the node's own key or any key extending it followed
by a colon. -/
def matchesNodePattern (nodeKey k : String) : Bool :=
  k == nodeKey || (nodeKey ++ ":").toList.isPrefixOf k.toList

/-- Translation of `UserGrantedAssetsApi.filter_by_nodes`: with no
node parameter the queryset is unchanged; with `all` truthy the assets
linked to the node or any descendant are kept (distinct); otherwise
only assets linked directly to the node. -/
def filter_by_nodes (queryset : List Asset) (node : Option NodeT) (query_all : Bool) :
    List Asset :=
  match node with
  | none => queryset
  | some nd =>
    if query_all then
      distinctById (queryset.filter (fun a => a.nodes.any (fun n => matchesNodePattern nd.key n.key)))
    else
      queryset.filter (fun a => a.nodes.any (fun n => n.id == nd.id))

/-- Modelled from the spec: `AssetPermissionUtilV2.get_nodes_assets`
(§4.2, `assets_under`) is not in the excerpt; per the spec and the
equivalent in-view filter `filter_by_nodes`, `deep = false` restricts
the granted assets to those bound directly to the node and
`deep = true` includes the full subtree. -/
def get_nodes_assets (granted : List Asset) (node : NodeT) (deep : Bool) : List Asset :=
  filter_by_nodes granted (some node) deep

/-- The target of a grant rule: a whole node (by key) or one asset. -/
inductive GTarget where
  | node (key : String)
  | asset (id : Nat)
deriving DecidableEq

/-- Modelled from the spec: a GrantRule (§3) applicable to the user,
binding a target to a login account with an action mask; for a
node-scoped rule `allAssets` records whether the rule grants all
assets under the node or is silent on assets. -/
structure GrantRule where
  target : GTarget
  allAssets : Bool
  acctId : Nat
  actions : Nat
deriving DecidableEq

/-- Key-prefix reachability (§3): `k` is the node itself or a strict
descendant, whose key extends the ancestor key followed by a colon. -/
def isDescendantOrSelf (ancKey k : String) : Bool :=
  k == ancKey || (ancKey ++ ":").toList.isPrefixOf k.toList

/-- A node key is granted when some node-scoped rule covers it (the
node or an ancestor) or some asset-scoped rule's asset is bound to it. -/
def nodeGranted (rules : List GrantRule) (assets : List Asset) (k : String) : Bool :=
  rules.any (fun r =>
    match r.target with
    | GTarget.node nk => isDescendantOrSelf nk k
    | GTarget.asset aid =>
      assets.any (fun a => a.id == aid && a.nodes.any (fun n => n.key == k)))

/-- Modelled from the spec: the TreeResolver node expansion (§4.1,
`resolve_tree` is not in the excerpt): the reachable nodes are those
covered by a node-scoped rule (the node and every descendant by
key-prefix match) or owning an asset named by an asset-scoped rule. -/
def resolve_tree (allNodes : List NodeT) (assets : List Asset) (rules : List GrantRule) :
    List NodeT :=
  allNodes.filter (fun n => nodeGranted rules assets n.key)

/-- The keys of the resolved tree, rooted at the synthetic root
(spec §4.1 step 6: nodes with no reachable ancestor attach under a
synthetic root, written here as the empty key). -/
def user_tree_keys (allNodes : List NodeT) (assets : List Asset) (rules : List GrantRule) :
    List String :=
  "" :: (resolve_tree allNodes assets rules).map (fun n => n.key)

/-- Modelled from the spec: the granting occurrences one rule
contributes (§4.1 steps 3-4, §4.2): a node rule granting all assets
reaches every valid asset bound to the node's subtree; a rule silent
on assets contributes none; an asset rule reaches that valid asset. -/
def ruleOccs (assets : List Asset) (r : GrantRule) : List GrantOcc :=
  match r.target with
  | GTarget.node nk =>
    if r.allAssets then
      (assets.filter (fun a =>
        a.is_valid && a.nodes.any (fun n => isDescendantOrSelf nk n.key))).map
        (fun a => ⟨a.id, r.acctId, r.actions⟩)
    else []
  | GTarget.asset aid =>
    (assets.filter (fun a => a.is_valid && a.id == aid)).map
      (fun a => ⟨a.id, r.acctId, r.actions⟩)

/-- Modelled from the spec: the resolved asset sequence of a user
(§4.2): flatten every rule's granting occurrences through the
deduplicating, ActionSet-merging AssetResolver. -/
def assets_for_user (assets : List Asset) (rules : List GrantRule) : List ResolvedAsset :=
  assets_for (List.flatten (rules.map (ruleOccs assets)))

/-- One cached entry: the resolved value and its expiry instant. -/
structure CacheEntry where
  value : List ResolvedAsset
  expireAt : Nat
deriving DecidableEq

/-- Modelled from the spec: the PermissionCache state (§4.3), a map
from user id to a cached resolved value with a TTL. -/
def CacheState : Type := List (Nat × CacheEntry)

/-- Modelled from the spec: the GrantStore snapshot, supplying each
user's applicable rules. -/
def GrantStoreV : Type := List (Nat × List GrantRule)

/-- Computing a user's resolved grant directly from the grant store. -/
def computeResolved (assets : List Asset) (store : GrantStoreV) (u : Nat) :
    List ResolvedAsset :=
  assets_for_user assets ((alookup store u).getD [])

/-- Modelled from the spec: `expire_all_cache` (§4.3) drops every
cached entry; invalidation is wholesale, never per user. -/
def expire_all_cache (_c : CacheState) : CacheState := []

/-- Modelled from the spec: `get_or_compute(user, cache_policy)`
(§4.3): with the default policy `0` an unexpired cached entry is
returned, otherwise the value is computed from the GrantStore and
stored with a fresh TTL; the force policy always recomputes. -/
def get_or_compute (assets : List Asset) (store : GrantStoreV) (c : CacheState)
    (now ttl u policy : Nat) : List ResolvedAsset × CacheState :=
  let recompute : List ResolvedAsset × CacheState :=
    let v := computeResolved assets store u
    (v, (u, ⟨v, now + ttl⟩) :: c)
  if policy = 0 then
    match alookup c u with
    | some e => if now < e.expireAt then (e.value, c) else recompute
    | none => recompute
  else recompute

/-- The outcome of a request handler: a JSON `Response` body carrying
a boolean `msg` with an HTTP status, or the `Http404` raised by
`get_object_or_404`. -/
inductive ApiResponse where
  | jsonMsg (msg : Bool) (status : Nat)
  | http404
deriving DecidableEq

/-- The outcome of `GetUserAssetPermissionActionsApi.get_object`: the
early `Response` returned on a malformed identifier, an `Http404`, or
the `actions` dictionary value. -/
inductive ActionsResult where
  | response (msg : Bool) (status : Nat)
  | http404
  | actionsValue (a : Nat)
deriving DecidableEq

/-- One element of `AssetPermissionUtil.get_assets()` as consumed by
the validation views: a dict exposing the asset id and the mapping
from system-user id to merged action mask. -/
structure AssetEntryV where
  id : Nat
  system_users : List (Nat × Nat)
deriving DecidableEq

/-- Modelled from the spec: `get_object_or_404(User, id=user_id)`
against the user table (the User model is not in the excerpt); a
string matching no existing user id surfaces as a lookup failure
(§7 NotFound), never as a crash. -/
def lookupUser (users : List Nat) (s : String) : Option Nat :=
  match parseUUID s with
  | some n => if n ∈ users then some n else none
  | none => none

/-- Translation of the asset loop of
`ValidateUserAssetPermissionApi.get` (lines 222-228): scan the granted
assets for the requested id; on the first match, answer `True`/200
exactly when the account's mask is truthy and decodes to a choice list
containing the action name, else break; answer `False`/403 otherwise. -/
def validateAssetsLoop (assets : List AssetEntryV) (aid sid : Nat) (action_name : String) :
    ApiResponse :=
  match assets.find? (fun a => a.id == aid) with
  | some a =>
    match alookup a.system_users sid with
    | some act =>
      if act ≠ 0 ∧ action_name ∈ value_to_choices act then ApiResponse.jsonMsg true 200
      else ApiResponse.jsonMsg false 403
    | none => ApiResponse.jsonMsg false 403
  | none => ApiResponse.jsonMsg false 403

/-- Translation of `ValidateUserAssetPermissionApi.get`: parse the
asset and system-user ids (a `ValueError` answers `False`/403), look
the user up by the raw `user_id` string, fetch the user's granted
assets and run the asset loop.  `getAssets` stands for
`AssetPermissionUtil(user, cache_policy=...).get_assets()`. -/
def validateUserAssetPermission (users : List Nat) (getAssets : Nat → List AssetEntryV)
    (user_id asset_id system_id action_name : String) : ApiResponse :=
  match parseUUID asset_id, parseUUID system_id with
  | some aid, some sid =>
    match lookupUser users user_id with
    | some uid => validateAssetsLoop (getAssets uid) aid sid action_name
    | none => ApiResponse.http404
  | _, _ => ApiResponse.jsonMsg false 403

/-- Translation of `GetUserAssetPermissionActionsApi.get_object`:
parse all three identifiers (a `ValueError` answers `False`/403), look
the user up, then scan the granted assets; `actions` starts at `0` and
is set to the system user's merged mask (default `0`) on the first
asset-id match. -/
def getUserAssetPermissionActions (users : List Nat) (getAssets : Nat → List AssetEntryV)
    (user_id asset_id system_id : String) : ActionsResult :=
  match parseUUID user_id, parseUUID asset_id, parseUUID system_id with
  | some uid, some aid, some sid =>
    if uid ∈ users then
      match (getAssets uid).find? (fun a => a.id == aid) with
      | some a => ActionsResult.actionsValue (alookupD a.system_users sid)
      | none => ActionsResult.actionsValue 0
    else ActionsResult.http404
  | _, _, _ => ActionsResult.response false 403

/-- Translation of `RefreshAssetPermissionCacheApi.retrieve`: expire
every cached entry and answer `True`/200. -/
def refreshAssetPermissionCache (c : CacheState) : ApiResponse × CacheState :=
  (ApiResponse.jsonMsg true 200, expire_all_cache c)

/-- Stable insertion of `x` into a list sorted by the key `kf`: `x`
goes before the first element with a strictly greater key, hence after
every earlier element of equal key, as Python's stable sorts place it. -/
def keyInsert {α κ : Type} [LinearOrder κ] (kf : α → κ) (x : α) : List α → List α
  | [] => [x]
  | y :: ys => if kf x < kf y then x :: y :: ys else y :: keyInsert kf x ys

/-- Stable sort by the key `kf`, modelling Python `sorted` /
`list.sort(key=...)`: elements are taken left to right and each is
stably inserted into the sorted prefix. -/
def keySort {α κ : Type} [LinearOrder κ] (kf : α → κ) (l : List α) : List α :=
  l.foldl (fun acc x => keyInsert kf x acc) []

/-- The sub-list of elements whose sort key equals `k`; used to state
stability of the sort (elements of one key class keep their order). -/
def keyEqFilter {α κ : Type} [LinearOrder κ] (kf : α → κ) (k : κ) (l : List α) : List α :=
  l.filter (fun a => decide (kf a = k))

/-- Translation of `UserGrantedAssetSystemUsersApi.get_queryset`
(lines 272-283): iterate the mapping returned by
`get_asset_system_users_with_actions` in its own order, set each
system user's `actions` attribute, and sort the list by the priority
key alone (`sort(key=lambda x: x.priority)`), which is stable. -/
def userGrantedAssetSystemUsers (m : List (SystemUserRec × Nat)) : List SystemUserRec :=
  keySort (fun su => su.priority)
    (m.map (fun p => { p.1 with actions := p.2 }))

/-- The ordering the claim attributes to the system-user listing:
ascending priority with ties broken by ascending name. -/
def sortedByPriorityThenName (l : List SystemUserRec) : Prop :=
  l.Pairwise (fun x y =>
    x.priority < y.priority ∨ (x.priority = y.priority ∧ x.name ≤ y.name))

/-- The tagged variant attached to a resolved tree node: all assets
under the node, or an explicit asset-id set (spec §9). -/
inductive AssetSpec where
  | all
  | explicitIds (ids : List Nat)
deriving DecidableEq

/-- One entry of the materialized tree queryset: a node entry or an
asset leaf tagged with its owning node id and hostname. -/
inductive TreeEntry where
  | node (nid : Nat) (name : String)
  | assetLeaf (ownerId : Nat) (hostname : String)
deriving DecidableEq

/-- Whether a materialized entry is an asset leaf. -/
def isAssetLeaf : TreeEntry → Bool
  | TreeEntry.node _ _ => false
  | TreeEntry.assetLeaf _ _ => true

/-- Modelled from the spec: `ParserNode.parse_node_to_tree_node` (not
in the excerpt) materializes one node entry. -/
def parse_node_to_tree_node (n : NodeT) : TreeEntry :=
  TreeEntry.node n.id n.name

/-- Modelled from the spec: `ParserNode.parse_asset_to_tree_node` (not
in the excerpt) materializes one asset leaf tagged with the owning
node id (§4.5). -/
def parse_asset_to_tree_node (n : NodeT) (a : Asset) : TreeEntry :=
  TreeEntry.assetLeaf n.id a.hostname

/-- Modelled from the spec: the natural ordering of materialized tree
entries (`common.tree.TreeNode` comparison, not in the excerpt): node
entries sort before asset leaves, node entries by id, asset leaves
ascending by owning node id and then by hostname (§4.5). -/
def entryKey : TreeEntry → Nat ×ₗ (Nat ×ₗ String)
  | TreeEntry.node i _ => toLex (0, toLex (i, ""))
  | TreeEntry.assetLeaf i h => toLex (1, toLex (i, h))

/-- The claimed order of two asset leaves: ascending owning node id,
ties by hostname; trivially holds for non-leaf entries. -/
def assetLeafLE : TreeEntry → TreeEntry → Prop
  | TreeEntry.assetLeaf i h, TreeEntry.assetLeaf j g => i < j ∨ (i = j ∧ h ≤ g)
  | _, _ => True

/-- Translation of the asset-collection loop of
`UserGrantedNodesWithAssetsAsTreeApi.get_queryset` (lines 178-198):
`assets` starts as the empty queryset and is reassigned per node from
the tree node's asset attribute: the `all` sentinel queries the assets
linked to `self.node` (the code uses `self.node`, not the loop node),
a truthy explicit id set queries those ids, and a falsy attribute
keeps the previous queryset; each round is narrowed to valid assets
before emitting `(node, asset)` pairs. -/
def emitNodeAssets (allAssets : List Asset) (selfNode : Option NodeT)
    (treeAssets : List (String × AssetSpec)) :
    List NodeT → List Asset → List (NodeT × Asset)
  | [], _ => []
  | nd :: rest, cur =>
    let cur1 : List Asset :=
      match alookup treeAssets nd.key with
      | some AssetSpec.all =>
        allAssets.filter (fun a =>
          match selfNode with
          | some sn => a.nodes.any (fun n => n.id == sn.id)
          | none => a.nodes.isEmpty)
      | some (AssetSpec.explicitIds ids) =>
        if ids.isEmpty then cur else allAssets.filter (fun a => ids.contains a.id)
      | none => cur
    let cur2 := cur1.filter (fun a => a.is_valid)
    cur2.map (fun a => (nd, a)) ++ emitNodeAssets allAssets selfNode treeAssets rest cur2

/-- Translation of `UserGrantedNodesWithAssetsAsTreeApi.get_queryset`:
the node entries from the parent class, then one asset leaf per
emitted `(node, asset)` pair, the whole queryset sorted by the natural
ordering of materialized entries (`sorted(queryset)`, line 199). -/
def userGrantedNodesWithAssetsTree (ns : List NodeT) (allAssets : List Asset)
    (selfNode : Option NodeT) (treeAssets : List (String × AssetSpec))
    (loopNodes : List NodeT) : List TreeEntry :=
  keySort entryKey
    ((ns.map parse_node_to_tree_node) ++
      (emitNodeAssets allAssets selfNode treeAssets loopNodes []).map
        (fun p => parse_asset_to_tree_node p.1 p.2))

section KeySortLemmas

variable {α κ : Type} [LinearOrder κ] (kf : α → κ)

theorem keyInsert_perm (x : α) (l : List α) : List.Perm (keyInsert kf x l) (x :: l) := by
  induction l with
  | nil => simp [keyInsert]
  | cons y ys ih =>
    simp only [keyInsert]
    split
    · exact List.Perm.refl _
    · exact (ih.cons y).trans (List.Perm.swap x y ys)

theorem keyInsert_sorted (x : α) (l : List α)
    (h : l.Pairwise (fun a b => kf a ≤ kf b)) :
    (keyInsert kf x l).Pairwise (fun a b => kf a ≤ kf b) := by
  induction l with
  | nil => simp [keyInsert]
  | cons y ys ih =>
    rcases List.pairwise_cons.mp h with ⟨hy, hs⟩
    simp only [keyInsert]
    split
    case isTrue hlt =>
      refine List.pairwise_cons.mpr ⟨?_, h⟩
      intro z hz
      rcases List.mem_cons.mp hz with rfl | hz'
      · exact le_of_lt hlt
      · exact le_of_lt (lt_of_lt_of_le hlt (hy z hz'))
    case isFalse hge =>
      refine List.pairwise_cons.mpr ⟨?_, ih hs⟩
      intro z hz
      rcases List.mem_cons.mp ((keyInsert_perm kf x ys).mem_iff.mp hz) with rfl | hz'
      · exact le_of_not_lt hge
      · exact hy z hz'

theorem keySortAux_perm (l : List α) :
    ∀ acc : List α,
      List.Perm (l.foldl (fun acc x => keyInsert kf x acc) acc) (acc ++ l) := by
  induction l with
  | nil => intro acc; simp
  | cons x xs ih =>
    intro acc
    simp only [List.foldl_cons]
    exact ((ih (keyInsert kf x acc)).trans
      (((keyInsert_perm kf x acc).append_right xs).trans List.perm_middle.symm))

theorem keySort_perm (l : List α) : List.Perm (keySort kf l) l := by
  simpa using keySortAux_perm kf l []

theorem keySortAux_sorted (l : List α) :
    ∀ acc : List α, acc.Pairwise (fun a b => kf a ≤ kf b) →
      (l.foldl (fun acc x => keyInsert kf x acc) acc).Pairwise (fun a b => kf a ≤ kf b) := by
  induction l with
  | nil => intro acc h; simpa using h
  | cons x xs ih =>
    intro acc h
    simp only [List.foldl_cons]
    exact ih _ (keyInsert_sorted kf x acc h)

theorem keySort_sorted (l : List α) :
    (keySort kf l).Pairwise (fun a b => kf a ≤ kf b) :=
  keySortAux_sorted kf l [] (by simp)

theorem keyInsert_filter_eq (x : α) (l : List α) (k : κ)
    (h : l.Pairwise (fun a b => kf a ≤ kf b)) :
    (keyInsert kf x l).filter (fun a => decide (kf a = k))
      = if kf x = k then l.filter (fun a => decide (kf a = k)) ++ [x]
        else l.filter (fun a => decide (kf a = k)) := by
  induction l with
  | nil => by_cases hxk : kf x = k <;> simp [keyInsert, hxk]
  | cons y ys ih =>
    rcases List.pairwise_cons.mp h with ⟨hy, hs⟩
    simp only [keyInsert]
    split
    case isTrue hlt =>
      have hnil : (y :: ys).filter (fun a => decide (kf a = k)) = [] ∨ ¬ kf x = k := by
        by_cases hxk : kf x = k
        · left
          refine List.filter_eq_nil_iff.mpr ?_
          intro z hz
          have hzk : k < kf z := by
            rcases List.mem_cons.mp hz with rfl | hz'
            · exact hxk ▸ hlt
            · exact lt_of_lt_of_le (hxk ▸ hlt) (hy z hz')
          simpa using (ne_of_gt hzk)
        · right; exact hxk
      by_cases hxk : kf x = k
      · rcases hnil with hnil' | hcontra
        · simp [List.filter_cons, hxk, hnil']
        · exact absurd hxk hcontra
      · simp [List.filter_cons, hxk]
    case isFalse hge =>
      have ihr := ih hs
      by_cases hyk : kf y = k <;> by_cases hxk : kf x = k <;>
        simp [List.filter_cons, hyk, hxk, ihr]

theorem keySortAux_filter (k : κ) (l : List α) :
    ∀ acc : List α, acc.Pairwise (fun a b => kf a ≤ kf b) →
      (l.foldl (fun acc x => keyInsert kf x acc) acc).filter (fun a => decide (kf a = k))
        = acc.filter (fun a => decide (kf a = k)) ++ l.filter (fun a => decide (kf a = k)) := by
  induction l with
  | nil => intro acc _; simp
  | cons x xs ih =>
    intro acc h
    simp only [List.foldl_cons]
    rw [ih _ (keyInsert_sorted kf x acc h), keyInsert_filter_eq kf x acc k h]
    by_cases hxk : kf x = k <;> simp [List.filter_cons, hxk]

theorem keySort_filter_eq (l : List α) (k : κ) :
    keyEqFilter kf k (keySort kf l) = keyEqFilter kf k l := by
  simpa [keyEqFilter] using keySortAux_filter kf k l [] (by simp)

end KeySortLemmas

theorem alookupD_orInsert (m : List (Nat × Nat)) (k v k' : Nat) :
    alookupD (orInsert m k v) k'
      = if k' = k then alookupD m k' ||| v else alookupD m k' := by
  induction m with
  | nil =>
    by_cases hk : k = k' <;> by_cases hk' : k' = k <;>
      simp_all [alookupD, alookup, orInsert, eq_comm, Nat.zero_or]
  | cons p rest ih =>
    obtain ⟨k₀, v₀⟩ := p
    by_cases h0 : k₀ = k
    · subst h0
      by_cases hk : k₀ = k' <;>
        simp_all [alookupD, alookup, orInsert, eq_comm]
    · by_cases hk : k₀ = k' <;>
        simp_all [alookupD, alookup, orInsert]

theorem acctActions_addOcc (acc : List ResolvedAsset) (o : GrantOcc) (i a : Nat) :
    acctActions (addOcc acc o) i a
      = if o.assetId = i ∧ o.acctId = a then acctActions acc i a ||| o.actions
        else acctActions acc i a := by
  induction acc with
  | nil =>
    by_cases hi : o.assetId = i <;> by_cases ha : o.acctId = a <;>
      simp_all [acctActions, addOcc, alookupD, alookup, Nat.zero_or]
  | cons r rest ih =>
    by_cases hro : r.assetId = o.assetId
    · by_cases hi : o.assetId = i
      · subst hi
        by_cases ha : o.acctId = a <;>
          simp_all [acctActions, addOcc, alookupD_orInsert, eq_comm]
      · have hri : ¬ r.assetId = i := by rw [hro]; exact hi
        simp_all [acctActions, addOcc]
    · by_cases hri : r.assetId = i
      · have hio : ¬ (o.assetId = i ∧ o.acctId = a) := by
          rintro ⟨h1, _⟩
          exact hro (hri.trans h1.symm)
        have hio2 : ¬ i = o.assetId := fun h => hro (hri.trans h)
        simp [acctActions, addOcc, hro, hri, hio, hio2]
      · simp_all [acctActions, addOcc]

theorem acctActions_foldl (occs : List GrantOcc) :
    ∀ (acc : List ResolvedAsset) (i a : Nat),
      acctActions (occs.foldl addOcc acc) i a
        = occs.foldl
            (fun v o => if o.assetId = i ∧ o.acctId = a then v ||| o.actions else v)
            (acctActions acc i a) := by
  induction occs with
  | nil => intro acc i a; rfl
  | cons o os ih =>
    intro acc i a
    simp only [List.foldl_cons]
    rw [ih (addOcc acc o) i a, acctActions_addOcc]

theorem mem_ids_addOcc (acc : List ResolvedAsset) (o : GrantOcc) (i : Nat) :
    i ∈ (addOcc acc o).map (fun r => r.assetId)
      ↔ i ∈ acc.map (fun r => r.assetId) ∨ i = o.assetId := by
  induction acc with
  | nil => simp [addOcc]
  | cons r rest ih =>
    by_cases hro : r.assetId = o.assetId
    · simp only [addOcc, if_pos hro, List.map_cons, List.mem_cons]
      constructor
      · rintro (rfl | h) <;> simp_all
      · rintro ((rfl | h) | rfl) <;> simp_all
    · simp only [addOcc, if_neg hro, List.map_cons, List.mem_cons, ih]
      tauto

theorem nodup_ids_addOcc (acc : List ResolvedAsset) (o : GrantOcc)
    (h : (acc.map (fun r => r.assetId)).Nodup) :
    ((addOcc acc o).map (fun r => r.assetId)).Nodup := by
  induction acc with
  | nil => simp [addOcc]
  | cons r rest ih =>
    rcases List.nodup_cons.mp h with ⟨hr, hrest⟩
    by_cases hro : r.assetId = o.assetId
    · simpa only [addOcc, if_pos hro, List.map_cons] using h
    · simp only [addOcc, if_neg hro, List.map_cons]
      refine List.nodup_cons.mpr ⟨?_, ih hrest⟩
      rw [mem_ids_addOcc]
      rintro (hin | heq)
      · exact hr hin
      · exact hro heq

theorem nodup_ids_foldl (occs : List GrantOcc) :
    ∀ acc : List ResolvedAsset, (acc.map (fun r => r.assetId)).Nodup →
      ((occs.foldl addOcc acc).map (fun r => r.assetId)).Nodup := by
  induction occs with
  | nil => intro acc h; simpa using h
  | cons o os ih =>
    intro acc h
    exact ih _ (nodup_ids_addOcc acc o h)

theorem mem_ids_foldl (occs : List GrantOcc) :
    ∀ (acc : List ResolvedAsset) (i : Nat),
      i ∈ ((occs.foldl addOcc acc).map (fun r => r.assetId))
        ↔ i ∈ acc.map (fun r => r.assetId) ∨ ∃ o ∈ occs, o.assetId = i := by
  induction occs with
  | nil => intro acc i; simp
  | cons o os ih =>
    intro acc i
    simp only [List.foldl_cons, ih (addOcc acc o) i, mem_ids_addOcc, List.mem_cons]
    constructor
    · rintro ((h | rfl) | ⟨o', ho', rfl⟩)
      · exact Or.inl h
      · exact Or.inr ⟨o, Or.inl rfl, rfl⟩
      · exact Or.inr ⟨o', Or.inr ho', rfl⟩
    · rintro (h | ⟨o', (rfl | ho'), rfl⟩)
      · exact Or.inl (Or.inl h)
      · exact Or.inl (Or.inr rfl)
      · exact Or.inr ⟨o', ho', rfl⟩

theorem distinctById_eq_self (l : List Asset) (h : (l.map (fun a => a.id)).Nodup) :
    distinctById l = l := by
  induction l with
  | nil => simp [distinctById]
  | cons a rest ih =>
    rw [List.map_cons, List.nodup_cons] at h
    obtain ⟨ha, hrest⟩ := h
    have hfil : rest.filter (fun b => !decide (b.id = a.id)) = rest := by
      refine List.filter_eq_self.mpr ?_
      intro b hb
      simp only [Bool.not_eq_eq_eq_not, Bool.not_true, decide_eq_false_iff_not]
      intro hid
      exact ha (hid ▸ List.mem_map_of_mem (fun a => a.id) hb)
    simp [distinctById, hfil, ih hrest]

/-- C2: for a node N granted with all assets and a strict descendant D
(D's key extends N's key followed by a colon), an asset bound only to
D is in `get_nodes_assets(N, deep=true)` and not in
`get_nodes_assets(N, deep=false)`; with deep=false the result is
exactly the granted assets bound directly to N. -/
theorem node_subtree_asset_scoping (granted : List Asset) (N D : NodeT) (A : Asset)
    (hnd : (granted.map (fun a => a.id)).Nodup)
    (hdesc : (N.key ++ ":").toList.isPrefixOf D.key.toList = true)
    (honly : A.nodes = [D])
    (hne : D.id ≠ N.id)
    (hmem : A ∈ granted) :
    A ∈ get_nodes_assets granted N true
    ∧ A ∉ get_nodes_assets granted N false
    ∧ get_nodes_assets granted N false
        = granted.filter (fun a => a.nodes.any (fun n => n.id == N.id)) := by
  refine ⟨?_, ?_, rfl⟩
  · show A ∈ distinctById
      (granted.filter (fun a => a.nodes.any (fun n => matchesNodePattern N.key n.key)))
    have hsub :
        ((granted.filter
            (fun a => a.nodes.any (fun n => matchesNodePattern N.key n.key))).map
          (fun a => a.id)).Sublist (granted.map (fun a => a.id)) :=
      (List.filter_sublist granted).map (fun a => a.id)
    rw [distinctById_eq_self _ (hnd.sublist hsub)]
    refine List.mem_filter.mpr ⟨hmem, ?_⟩
    simp only [honly, List.any_cons, List.any_nil, Bool.or_false, matchesNodePattern,
      Bool.or_eq_true]
    right
    exact hdesc
  · intro hcontra
    have hpred := (List.mem_filter.mp hcontra).2
    simp only [honly, List.any_cons, List.any_nil, Bool.or_false, beq_iff_eq] at hpred
    exact hne hpred

theorem node_subtree_asset_scoping_witness :
    (⟨10, "h", "ip", true, [⟨2, "1:1", "d"⟩]⟩ : Asset)
        ∈ get_nodes_assets [⟨10, "h", "ip", true, [⟨2, "1:1", "d"⟩]⟩] ⟨1, "1", "n"⟩ true
    ∧ (⟨10, "h", "ip", true, [⟨2, "1:1", "d"⟩]⟩ : Asset)
        ∉ get_nodes_assets [⟨10, "h", "ip", true, [⟨2, "1:1", "d"⟩]⟩] ⟨1, "1", "n"⟩ false := by
  have h := node_subtree_asset_scoping [⟨10, "h", "ip", true, [⟨2, "1:1", "d"⟩]⟩]
    ⟨1, "1", "n"⟩ ⟨2, "1:1", "d"⟩ ⟨10, "h", "ip", true, [⟨2, "1:1", "d"⟩]⟩
    (by decide) (by decide) rfl (by decide) (List.mem_singleton_self _)
  exact ⟨h.1, h.2.1⟩

/-- C8: a user with zero applicable grant rules resolves without
error: the reachable node set is empty, the user tree holds only the
synthetic root, and the resolved asset sequence is empty. -/
theorem empty_grants_resolve_to_root_only (allNodes : List NodeT) (assets : List Asset) :
    resolve_tree allNodes assets [] = []
    ∧ user_tree_keys allNodes assets [] = [""]
    ∧ assets_for_user assets [] = [] := by
  refine ⟨?_, ?_, rfl⟩
  · simp [resolve_tree, nodeGranted]
  · simp [user_tree_keys, resolve_tree, nodeGranted]

/-- C6: after `expire_all_cache`, the next `get_or_compute` with the
default policy recomputes from the grant store: the returned value is
the freshly computed one, independently of whatever was cached before
the expiry; the refresh endpoint leaves an empty cache. -/
theorem cache_expiry_forces_recompute (assets : List Asset) (store : GrantStoreV)
    (c c' : CacheState) (now ttl u : Nat) :
    (get_or_compute assets store (expire_all_cache c) now ttl u 0).1
        = computeResolved assets store u
    ∧ get_or_compute assets store (expire_all_cache c) now ttl u 0
        = get_or_compute assets store (expire_all_cache c') now ttl u 0
    ∧ (refreshAssetPermissionCache c).2 = [] :=
  ⟨rfl, rfl, rfl⟩

/-- C1: the resolved asset sequence holds each asset at most once
(distinct ids), an asset appears exactly when some granting path
reaches it, and its per-login-account ActionSet is the union of the
masks of all granting paths. -/
theorem assets_for_dedup_union :
    (∀ occs : List GrantOcc, ((assets_for occs).map (fun r => r.assetId)).Nodup)
    ∧ (∀ (occs : List GrantOcc) (i a : Nat),
        acctActions (assets_for occs) i a = occActionsUnion occs i a)
    ∧ (∀ (occs : List GrantOcc) (i : Nat),
        (∃ r ∈ assets_for occs, r.assetId = i) ↔ ∃ o ∈ occs, o.assetId = i)
    ∧ (∀ (assets : List Asset) (rules : List GrantRule),
        ((assets_for_user assets rules).map (fun r => r.assetId)).Nodup) := by
  have hmem : ∀ (occs : List GrantOcc) (i : Nat),
      (∃ r ∈ assets_for occs, r.assetId = i) ↔ ∃ o ∈ occs, o.assetId = i := by
    intro occs i
    have h := mem_ids_foldl occs [] i
    simp only [List.map_nil, List.not_mem_nil, false_or] at h
    constructor
    · rintro ⟨r, hr, rfl⟩
      exact h.mp (List.mem_map_of_mem (fun r => r.assetId) hr)
    · intro h'
      rcases List.mem_map.mp (h.mpr h') with ⟨r, hr, hri⟩
      exact ⟨r, hr, hri⟩
  refine ⟨?_, ?_, hmem, ?_⟩
  · intro occs
    exact nodup_ids_foldl occs [] (by simp)
  · intro occs i a
    have h := acctActions_foldl occs [] i a
    simpa [assets_for, occActionsUnion, acctActions] using h
  · intro assets rules
    exact nodup_ids_foldl _ [] (by simp)

theorem mem_choices_filter_iff (L : List (String × Nat)) (v : Nat) (name : String)
    (h : (L.map (fun p => p.1)).Nodup) :
    name ∈ (L.filter (fun p => v &&& p.2 ≠ 0)).map (fun p => p.1)
      ↔ ∃ b, alookup L name = some b ∧ v &&& b ≠ 0 := by
  induction L with
  | nil => simp [alookup]
  | cons q rest ih =>
    obtain ⟨k, b⟩ := q
    rw [List.map_cons, List.nodup_cons] at h
    obtain ⟨hk, hrest⟩ := h
    have hsub : ∀ x : String,
        x ∈ (rest.filter (fun p => v &&& p.2 ≠ 0)).map (fun p => p.1) →
          x ∈ rest.map (fun p => p.1) := by
      intro x hx
      rcases List.mem_map.mp hx with ⟨pr, hpr, rfl⟩
      exact List.mem_map_of_mem (fun p => p.1) (List.mem_of_mem_filter hpr)
    by_cases hkn : k = name
    · subst hkn
      by_cases hb : v &&& b ≠ 0
      · simp [alookup, List.filter_cons, hb]
      · simp only [List.filter_cons]
        rw [if_neg (by simpa using hb)]
        constructor
        · intro hmemf
          exact absurd (hsub k hmemf) hk
        · rintro ⟨b', hb', hvb⟩
          have hbb : b = b' := by simpa [alookup] using hb'
          exact absurd (hbb ▸ hvb) hb
    · simp only [List.filter_cons, alookup, if_neg hkn]
      by_cases hb : v &&& b ≠ 0
      · rw [if_pos (by simpa using hb)]
        simp only [List.map_cons, List.mem_cons]
        rw [ih hrest]
        constructor
        · rintro (rfl | h')
          · exact absurd rfl hkn
          · exact h'
        · intro h'
          exact Or.inr h'
      · rw [if_neg (by simpa using hb)]
        exact ih hrest

/-- C5: decoding the zero ActionSet yields no action names; an
ActionSet contains a name exactly when the name appears in its
decoding; and the permission-validation loop answers not-permitted for
every action name when the merged ActionSet of the matched pair is
zero. -/
theorem action_decode_contains_zero_denies :
    value_to_choices 0 = []
    ∧ (∀ (v : Nat) (name : String),
        containsAction v name = true ↔ name ∈ value_to_choices v)
    ∧ (∀ (assets : List AssetEntryV) (aid sid : Nat) (action_name : String)
        (a : AssetEntryV),
        assets.find? (fun x => x.id == aid) = some a →
        alookup a.system_users sid = some 0 →
        validateAssetsLoop assets aid sid action_name = ApiResponse.jsonMsg false 403) := by
  refine ⟨rfl, ?_, ?_⟩
  · intro v name
    have hiff := mem_choices_filter_iff actionChoices v name (by decide)
    simp only [value_to_choices]
    rw [hiff]
    cases halk : alookup actionChoices name with
    | none => simp [containsAction, halk]
    | some b => simp [containsAction, halk]
  · intro assets aid sid action_name a hfind hzero
    simp [validateAssetsLoop, hfind, hzero]

theorem action_zero_denies_witness :
    validateAssetsLoop [⟨5, [(7, 0)]⟩] 5 7 "connect" = ApiResponse.jsonMsg false 403 :=
  action_decode_contains_zero_denies.2.2 [⟨5, [(7, 0)]⟩] 5 7 "connect" ⟨5, [(7, 0)]⟩
    (by rfl) (by rfl)

/-- C10: with well-formed identifiers and an existing user, the
actions lookup answers `actions = 0` both when the asset is not among
the user's granted assets and when the matched asset records no grant
for the given system user, rather than failing. -/
theorem actions_lookup_defaults_to_zero (users : List Nat)
    (getAssets : Nat → List AssetEntryV) (user_id asset_id system_id : String)
    (uid aid sid : Nat)
    (hu : parseUUID user_id = some uid) (ha : parseUUID asset_id = some aid)
    (hs : parseUUID system_id = some sid) (hmem : uid ∈ users) :
    ((getAssets uid).find? (fun x => x.id == aid) = none →
      getUserAssetPermissionActions users getAssets user_id asset_id system_id
        = ActionsResult.actionsValue 0)
    ∧ (∀ a : AssetEntryV, (getAssets uid).find? (fun x => x.id == aid) = some a →
        alookup a.system_users sid = none →
        getUserAssetPermissionActions users getAssets user_id asset_id system_id
          = ActionsResult.actionsValue 0) := by
  constructor
  · intro hnone
    simp [getUserAssetPermissionActions, hu, ha, hs, hmem, hnone]
  · intro a hsome hlook
    simp [getUserAssetPermissionActions, hu, ha, hs, hmem, hsome, alookupD, hlook]

theorem actions_lookup_defaults_to_zero_witness :
    getUserAssetPermissionActions [1] (fun _ => [])
        "00000000000000000000000000000001" "00000000000000000000000000000002"
        "00000000000000000000000000000003"
      = ActionsResult.actionsValue 0 :=
  (actions_lookup_defaults_to_zero [1] (fun _ => [])
      "00000000000000000000000000000001" "00000000000000000000000000000002"
      "00000000000000000000000000000003" 1 2 3
      (by rfl) (by rfl) (by rfl) (by simp)).1 (by rfl)

/-- C7 (amended): a malformed asset or system-user id is rejected with
the `msg: false` / 403 response on both endpoints, and a malformed
user id is likewise rejected on the actions endpoint; on the
validation endpoint, however, the user id is never UUID-validated, so
a malformed user id flows into the user lookup and surfaces as a
lookup failure instead of the 403 response. -/
theorem malformed_identifier_rejection :
    (∀ (users : List Nat) (getAssets : Nat → List AssetEntryV)
        (user_id asset_id system_id action_name : String),
      parseUUID asset_id = none ∨ parseUUID system_id = none →
      validateUserAssetPermission users getAssets user_id asset_id system_id action_name
        = ApiResponse.jsonMsg false 403)
    ∧ (∀ (users : List Nat) (getAssets : Nat → List AssetEntryV)
        (user_id asset_id system_id : String),
      parseUUID user_id = none ∨ parseUUID asset_id = none ∨ parseUUID system_id = none →
      getUserAssetPermissionActions users getAssets user_id asset_id system_id
        = ActionsResult.response false 403)
    ∧ (∀ (users : List Nat) (getAssets : Nat → List AssetEntryV)
        (user_id asset_id system_id action_name : String) (aid sid : Nat),
      parseUUID user_id = none → parseUUID asset_id = some aid →
      parseUUID system_id = some sid →
      validateUserAssetPermission users getAssets user_id asset_id system_id action_name
        = ApiResponse.http404) := by
  refine ⟨?_, ?_, ?_⟩
  · rintro users ga u a s an (hnone | hnone)
    · cases hs : parseUUID s <;> simp [validateUserAssetPermission, hnone, hs]
    · cases ha : parseUUID a <;> simp [validateUserAssetPermission, hnone, ha]
  · rintro users ga u a s (hnone | hnone | hnone)
    · cases ha : parseUUID a <;> cases hs : parseUUID s <;>
        simp [getUserAssetPermissionActions, hnone, ha, hs]
    · cases hu : parseUUID u <;> cases hs : parseUUID s <;>
        simp [getUserAssetPermissionActions, hnone, hu, hs]
    · cases hu : parseUUID u <;> cases ha : parseUUID a <;>
        simp [getUserAssetPermissionActions, hnone, hu, ha]
  · intro users ga u a s an aid sid hu ha hs
    simp [validateUserAssetPermission, hu, ha, hs, lookupUser]

theorem malformed_identifier_rejection_witness :
    validateUserAssetPermission [] (fun _ => []) "u" "xyz" "abc" "connect"
        = ApiResponse.jsonMsg false 403
    ∧ getUserAssetPermissionActions [] (fun _ => []) "xyz" "a" "b"
        = ActionsResult.response false 403
    ∧ validateUserAssetPermission [1] (fun _ => []) "xyz"
          "00000000000000000000000000000002" "00000000000000000000000000000003" "connect"
        = ApiResponse.http404 :=
  ⟨malformed_identifier_rejection.1 [] (fun _ => []) "u" "xyz" "abc" "connect"
      (Or.inl (by rfl)),
   malformed_identifier_rejection.2.1 [] (fun _ => []) "xyz" "a" "b"
      (Or.inl (by rfl)),
   malformed_identifier_rejection.2.2 [1] (fun _ => []) "xyz"
      "00000000000000000000000000000002" "00000000000000000000000000000003" "connect" 2 3
      (by rfl) (by rfl) (by rfl)⟩

theorem malformed_user_id_counterexample :
    validateUserAssetPermission [1] (fun _ => []) "xyz"
        "00000000000000000000000000000002" "00000000000000000000000000000003" "connect"
      ≠ ApiResponse.jsonMsg false 403 := by
  decide

theorem entryKey_le_node_before (a b : TreeEntry) (h : entryKey a ≤ entryKey b) :
    isAssetLeaf b = true ∨ isAssetLeaf a = false := by
  cases a with
  | node i n => exact Or.inr rfl
  | assetLeaf i hst =>
    cases b with
    | node j m =>
      exfalso
      simp only [entryKey] at h
      rcases (Prod.Lex.le_iff _ _).mp h with h1 | ⟨h1, -⟩
      · exact absurd h1 (by omega)
      · exact absurd h1 (by omega)
    | assetLeaf j g => exact Or.inl rfl

theorem entryKey_le_assetLeafLE (a b : TreeEntry) (h : entryKey a ≤ entryKey b) :
    assetLeafLE a b := by
  cases a with
  | node i n => cases b <;> simp [assetLeafLE]
  | assetLeaf i hst =>
    cases b with
    | node j m => simp [assetLeafLE]
    | assetLeaf j g =>
      simp only [entryKey] at h
      simp only [assetLeafLE]
      rcases (Prod.Lex.le_iff _ _).mp h with h1 | ⟨-, h2⟩
      · exact absurd h1 (lt_irrefl _)
      · rcases (Prod.Lex.le_iff _ _).mp h2 with h3 | ⟨h3, h4⟩
        · exact Or.inl h3
        · exact Or.inr ⟨h3, h4⟩

/-- C3: in the materialized tree-with-assets queryset every node entry
precedes every asset leaf, asset leaves are ascending by owning node
id then hostname, the underlying entry ordering is total, and the
sorted output is a stable permutation of the collected entries
(entries of equal key keep their collection order). -/
theorem tree_materialization_order (ns : List NodeT) (allAssets : List Asset)
    (selfNode : Option NodeT) (treeAssets : List (String × AssetSpec))
    (loopNodes : List NodeT) :
    (userGrantedNodesWithAssetsTree ns allAssets selfNode treeAssets loopNodes).Pairwise
        (fun a b => isAssetLeaf b = true ∨ isAssetLeaf a = false)
    ∧ ((userGrantedNodesWithAssetsTree ns allAssets selfNode treeAssets loopNodes).filter
          isAssetLeaf).Pairwise assetLeafLE
    ∧ (∀ a b : TreeEntry, entryKey a ≤ entryKey b ∨ entryKey b ≤ entryKey a)
    ∧ List.Perm (userGrantedNodesWithAssetsTree ns allAssets selfNode treeAssets loopNodes)
        ((ns.map parse_node_to_tree_node) ++
          (emitNodeAssets allAssets selfNode treeAssets loopNodes []).map
            (fun p => parse_asset_to_tree_node p.1 p.2))
    ∧ (∀ k : Nat ×ₗ (Nat ×ₗ String),
        keyEqFilter entryKey k
            (userGrantedNodesWithAssetsTree ns allAssets selfNode treeAssets loopNodes)
          = keyEqFilter entryKey k
              ((ns.map parse_node_to_tree_node) ++
                (emitNodeAssets allAssets selfNode treeAssets loopNodes []).map
                  (fun p => parse_asset_to_tree_node p.1 p.2))) := by
  have hsorted := keySort_sorted entryKey
    ((ns.map parse_node_to_tree_node) ++
      (emitNodeAssets allAssets selfNode treeAssets loopNodes []).map
        (fun p => parse_asset_to_tree_node p.1 p.2))
  refine ⟨?_, ?_, ?_, keySort_perm _ _, fun k => keySort_filter_eq _ _ k⟩
  · exact hsorted.imp (fun h => entryKey_le_node_before _ _ h)
  · exact (List.Pairwise.sublist (List.filter_sublist _) hsorted).imp
      (fun h => entryKey_le_assetLeafLE _ _ h)
  · intro a b
    exact le_total _ _

/-- C4 (counterexample): two accounts of equal priority whose mapping
order is name-descending stay name-descending after the caller-side
sort, so the output is not ordered by priority with name tie-break. -/
theorem priority_tie_name_counterexample :
    ¬ sortedByPriorityThenName
        (userGrantedAssetSystemUsers [(⟨1, "b", 5, 0⟩, 3), (⟨2, "a", 5, 0⟩, 4)]) := by
  intro h
  have hout : userGrantedAssetSystemUsers [(⟨1, "b", 5, 0⟩, 3), (⟨2, "a", 5, 0⟩, 4)]
      = [⟨1, "b", 5, 3⟩, ⟨2, "a", 5, 4⟩] := rfl
  rw [hout] at h
  rcases List.pairwise_cons.mp h with ⟨hrel, -⟩
  have hx := hrel ⟨2, "a", 5, 4⟩ (List.mem_singleton_self _)
  rcases hx with hlt | ⟨-, hle⟩
  · exact absurd hlt (by decide)
  · rw [String.le_iff_toList_le] at hle
    exact absurd hle (by decide)

/-- C4 (amended): the system users for an asset are sorted by
ascending priority only; the sort is stable, so accounts of equal
priority keep the mapping's own order (no name tie-break); in the
claim's scenario the priority-5 account is yielded before the
priority-10 one. -/
theorem system_users_priority_order :
    (∀ m : List (SystemUserRec × Nat),
      (userGrantedAssetSystemUsers m).Pairwise (fun x y => x.priority ≤ y.priority))
    ∧ (∀ (m : List (SystemUserRec × Nat)) (p : Nat),
        keyEqFilter (fun su => su.priority) p (userGrantedAssetSystemUsers m)
          = keyEqFilter (fun su => su.priority) p
              (m.map (fun q => { q.1 with actions := q.2 })))
    ∧ (∀ m : List (SystemUserRec × Nat),
        List.Perm (userGrantedAssetSystemUsers m)
          (m.map (fun q => { q.1 with actions := q.2 })))
    ∧ userGrantedAssetSystemUsers [(⟨1, "l1", 10, 0⟩, 6), (⟨2, "l2", 5, 0⟩, 7)]
        = [⟨2, "l2", 5, 7⟩, ⟨1, "l1", 10, 6⟩] := by
  refine ⟨?_, ?_, ?_, rfl⟩
  · intro m
    exact keySort_sorted _ _
  · intro m p
    exact keySort_filter_eq _ _ _
  · intro m
    exact keySort_perm _ _

/-- C9: every `(node, asset)` pair emitted by the tree-with-assets
materialization loop carries a valid asset: each round's queryset
passes through the validity filter before any leaf is emitted, under
both the all-assets sentinel and an explicit asset-id set. -/
theorem materialized_assets_are_valid (allAssets : List Asset) (selfNode : Option NodeT)
    (treeAssets : List (String × AssetSpec)) (loopNodes : List NodeT) (cur : List Asset)
    (p : NodeT × Asset)
    (hp : p ∈ emitNodeAssets allAssets selfNode treeAssets loopNodes cur) :
    p.2.is_valid = true := by
  induction loopNodes generalizing cur with
  | nil => simp [emitNodeAssets] at hp
  | cons nd rest ih =>
    simp only [emitNodeAssets, List.mem_append] at hp
    rcases hp with h | h
    · rcases List.mem_map.mp h with ⟨a, ha, rfl⟩
      exact (List.mem_filter.mp ha).2
    · exact ih _ h

theorem materialized_assets_are_valid_witness :
    ((⟨1, "1", "n"⟩, ⟨1, "h", "i", true, [⟨1, "1", "n"⟩]⟩) : NodeT × Asset).2.is_valid
      = true :=
  materialized_assets_are_valid [⟨1, "h", "i", true, [⟨1, "1", "n"⟩]⟩]
    (some ⟨1, "1", "n"⟩) [("1", AssetSpec.all)] [⟨1, "1", "n"⟩] []
    (⟨1, "1", "n"⟩, ⟨1, "h", "i", true, [⟨1, "1", "n"⟩]⟩) (by decide)

end JumpServer
